import Mathlib

/-!
Verification of the candidate-ranking engine of `textual-autocomplete`.

The development shallowly embeds the engine's core
(`textual_autocomplete/fuzzy_search.py` and the ranking part of
`textual_autocomplete/_autocomplete2.py`) in Lean:

* Python strings are `List Char`; `str.lower()` is `Char.toLower` mapped
  over the string, and `re.IGNORECASE` character equality is modelled as
  equality of the `toLower` images.
* Python `float` scores are modelled as exact rationals `ℚ`; the scoring
  expression only performs `+`, `*` and `/` on small integers, so the
  rational value is the ideal value the float code approximates.
* The `_match` generator is a fuel-indexed loop (`matchLoop`) returning the
  list of yielded `(score, offsets)` pairs in yield order; the fuel mirrors
  the `remaining_loops := 10_000` counter including its exact stop
  condition (the walrus test `(remaining_loops := remaining_loops - 1)`
  stops the loop when the decremented counter reaches `0`).
* A raised exception (`IndexError` from `query[search.query_offset]` on an
  empty query) is modelled by `Option`: `none` is a raised exception.
* The process-wide LRU cache (`textual.cache.LRUCache`, an external
  collaborator of this repository) is modelled as an association list in
  most-recently-used-first order with capacity `1024 * 4`, lookups moving
  the hit entry to the front and insertions evicting from the back.
-/

namespace TextualAC

/-- Case folding of one character, modelling Python `str.lower` (and the
character equivalence used by `re.IGNORECASE`). -/
def foldChar (ch : Char) : Char := ch.toLower

/-- The function `_match` lower-cases query and candidate when the search is
case-insensitive (`fuzzy_search.py` lines 111-113). -/
def foldCase (caseSensitive : Bool) (s : List Char) : List Char :=
  if caseSensitive then s else s.map foldChar

/-- A Python `\w` word character: alphanumeric or underscore (ASCII model). -/
def isWordChar (ch : Char) : Bool := ch.isAlphanum || ch == '_'

/-- Start offsets of the maximal `\w+` runs of the candidate: the set
`first_letters = {match.start() for match in finditer(r"\w+", candidate)}`
(`fuzzy_search.py` line 116), as the sorted duplicate-free list of indices
at which a word character starts a run. -/
def wordStarts (c : List Char) : List Nat :=
  (List.range c.length).filter fun i =>
    isWordChar (c.getD i ' ') && (i == 0 || !isWordChar (c.getD (i - 1) ' '))

/-- Python `candidate.find(ch, start)`: the first index `≥ start` holding
`ch`, `none` for `-1`. -/
def strFind (c : List Char) (ch : Char) (start : Nat) : Option Nat :=
  (List.range c.length).find? fun i => decide (start ≤ i) && (c.getD i ' ' == ch)

/-- The `_Search` named tuple of `fuzzy_search.py` (lines 20-25): a partial
alignment of the query against the candidate. -/
structure SearchState where
  candidateOffset : Nat := 0
  queryOffset : Nat := 0
  offsets : List Nat := []
deriving DecidableEq

/-- Method `_Search.branch` (lines 27-40): the advance branch consumes the found
offset, the skip branch moves past it. -/
def SearchState.branch (s : SearchState) (offset : Nat) : SearchState × SearchState :=
  (⟨offset + 1, s.queryOffset + 1, s.offsets ++ [offset]⟩,
   ⟨offset + 1, s.queryOffset, s.offsets⟩)

/-- Tail of the fold of `_Search.groups`: counts the adjacent pairs that
break a run of consecutive offsets. -/
def groupsAux (last : Nat) : List Nat → Nat
  | [] => 0
  | o :: rest => (if o = last + 1 then 0 else 1) + groupsAux o rest

/-- Property `_Search.groups` (lines 42-51): the number of maximal runs of
consecutive integers in `offsets`. (Python unpacking raises on an empty
tuple; `groups` is only ever applied to completed non-empty alignments, and
the `[]` case is given the start value `1` of the Python fold.) -/
def groups : List Nat → Nat
  | [] => 1
  | x :: xs => 1 + groupsAux x xs

/-- The `score` closure of `_match` (lines 118-137), over the word-start
offsets `fl` of the (folded) candidate. `(fl.filter offsets.contains).length`
is `len(first_letters.intersection(offsets))`: `fl` has no duplicates, so the
filter length is exactly the cardinality of the set intersection. -/
def score (fl : List Nat) (offsets : List Nat) : ℚ :=
  let offsetCount := offsets.length
  let base : ℚ := (offsetCount : ℚ) + ((fl.filter offsets.contains).length : ℚ)
  let normalizedGroups : ℚ :=
    ((offsetCount : ℚ) - ((groups offsets : ℚ) - 1)) / (offsetCount : ℚ)
  base * (1 + normalizedGroups * normalizedGroups)

/-- The working loop of `_match` (lines 139-162), parameterised by the fuel
counter mirroring `remaining_loops`. Python's loop condition
`stack and (remaining_loops := remaining_loops - 1)` stops once the
decremented counter hits `0`, i.e. when the counter reads `1` at the check;
the `0` case is unreachable from the start value `10_000`. The result is
the list of yielded `(score, offsets)` pairs, in yield order; `none` models
the `IndexError` raised by `query[search.query_offset]` when the query has
been exhausted (only possible for an empty query). -/
def matchLoop (q c : List Char) (fl : List Nat) :
    List SearchState → Nat → Option (List (ℚ × List Nat))
  | [], _ => some []
  | _ :: _, 0 => some []
  | _ :: _, 1 => some []
  | s :: stack, fuel + 2 =>
    match q.get? s.queryOffset with
    | none => none
    | some ch =>
      match strFind c ch s.candidateOffset with
      | none => matchLoop q c fl stack (fuel + 1)
      | some offset =>
        if (q.drop s.queryOffset).all (fun qc => (c.drop s.candidateOffset).contains qc) then
          if (s.branch offset).1.queryOffset = q.length then
            (matchLoop q c fl ((s.branch offset).2 :: stack) (fuel + 1)).map
              (fun ys => (score fl (s.branch offset).1.offsets, (s.branch offset).1.offsets) :: ys)
          else
            matchLoop q c fl ((s.branch offset).1 :: (s.branch offset).2 :: stack) (fuel + 1)
        else
          matchLoop q c fl stack (fuel + 1)

/-- Generator `FuzzySearch._match` (lines 99-162): fold case, precompute word starts,
run the branching search from the empty `_Search()` with
`remaining_loops = 10_000`. -/
def runMatch (caseSensitive : Bool) (query candidate : List Char) :
    Option (List (ℚ × List Nat)) :=
  let q := foldCase caseSensitive query
  let c := foldCase caseSensitive candidate
  matchLoop q c (wordStarts c) [{}] 10000

/-- Python `max(..., key=itemgetter(0), default=(0.0, ()))` (lines 93-95): the
first pair with the maximal score, `(0, [])` when there is none. -/
def maxByScore (ys : List (ℚ × List Nat)) : ℚ × List Nat :=
  match ys with
  | [] => (0, [])
  | y :: rest => rest.foldl (fun m x => if m.1 < x.1 then x else m) y

/-- The regex fast-rejection test of `FuzzySearch.match` (lines 83-88): the
pattern `"(q₀).*?(q₁).*?…"` searched with `IGNORECASE` when insensitive
succeeds exactly when the (folded) query is a subsequence of the (folded)
candidate; `List.isSublist` is that greedy subsequence test. -/
def regexAccepts (caseSensitive : Bool) (query candidate : List Char) : Bool :=
  (foldCase caseSensitive query).isSublist (foldCase caseSensitive candidate)

/-- Method `FuzzySearch.match` without the cache: fast rejection, then the best
yielded alignment. `none` models a raised exception. -/
def fuzzyMatchPure (caseSensitive : Bool) (query candidate : List Char) :
    Option (ℚ × List Nat) :=
  if regexAccepts caseSensitive query candidate then
    (runMatch caseSensitive query candidate).map maxByScore
  else
    some (0, [])

/-- Cache keys `(query, candidate, case_sensitive)` (line 90). -/
abbrev CacheKey := List Char × List Char × Bool

/-- The LRU cache modelled as an association list in most-recently-used
first order. -/
abbrev Cache := List (CacheKey × (ℚ × List Nat))

/-- Capacity `1024 * 4` of the `LRUCache` (lines 60-62). -/
def cacheCapacity : Nat := 1024 * 4

/-- Cache hit: return the stored result and move the entry to the front
(LRU touch). -/
def cacheGet (cache : Cache) (k : CacheKey) : Option ((ℚ × List Nat) × Cache) :=
  match cache.find? (fun e => e.1 == k) with
  | none => none
  | some e => some (e.2, e :: cache.filter (fun e2 => !(e2.1 == k)))

/-- Cache insertion at the front, evicting least-recently-used entries
beyond the capacity. -/
def cacheInsert (cache : Cache) (k : CacheKey) (v : ℚ × List Nat) : Cache :=
  ((k, v) :: cache.filter (fun e => !(e.1 == k))).take cacheCapacity

/-- Method `FuzzySearch.match` (lines 73-97), explicit in the cache state: regex
fast rejection without touching the cache, then cache lookup, then the
branching search with insertion of the computed result. -/
def matchWithCache (caseSensitive : Bool) (query candidate : List Char)
    (cache : Cache) : Option ((ℚ × List Nat) × Cache) :=
  if regexAccepts caseSensitive query candidate then
    match cacheGet cache (query, candidate, caseSensitive) with
    | some (v, cache') => some (v, cache')
    | none =>
      match (runMatch caseSensitive query candidate).map maxByScore with
      | none => none
      | some r => some (r, cacheInsert cache (query, candidate, caseSensitive) r)
  else
    some ((0, []), cache)

/-- A cache is coherent when every stored entry is the result the pure
computation produces for its key. Freshly started caches are empty, and
every cache reachable through `matchWithCache` is coherent. -/
def CacheOK (cache : Cache) : Prop :=
  ∀ e ∈ cache, fuzzyMatchPure e.1.2.2 e.1.1 e.1.2.1 = some e.2

instance : DecidableEq (ℚ × List Nat) := inferInstance

instance : DecidableEq CacheKey := inferInstance

instance : DecidableEq (CacheKey × (ℚ × List Nat)) := inferInstance

instance : DecidableEq Cache := inferInstance

instance : DecidableEq ((ℚ × List Nat) × Cache) := inferInstance

instance : DecidableEq (Option ((ℚ × List Nat) × Cache)) := inferInstance

/-- Invariant maintained by every `_Search` state pushed on the stack:
offsets are strictly increasing, all below the current candidate offset and
the candidate length, one per consumed query character, and at least one
query character is still unconsumed. -/
structure StateOK (q c : List Char) (s : SearchState) : Prop where
  chain : List.Chain' (· < ·) s.offsets
  lt_cand : ∀ o ∈ s.offsets, o < s.candidateOffset
  lt_len : ∀ o ∈ s.offsets, o < c.length
  len_eq : s.offsets.length = s.queryOffset
  qo_lt : s.queryOffset < q.length

/-- Invariant of every `(score, offsets)` pair yielded by the branching
search: offsets strictly increasing, inside the candidate, one per query
character, non-empty, and the score is the `score` closure's value. -/
structure YieldOK (fl : List Nat) (q c : List Char) (y : ℚ × List Nat) : Prop where
  chain : List.Chain' (· < ·) y.2
  lt_len : ∀ o ∈ y.2, o < c.length
  len_eq : y.2.length = q.length
  ne_nil : y.2 ≠ []
  score_eq : y.1 = score fl y.2

/-- Iteration counter of the branching loop: the same recursion as
`matchLoop`, counting executed loop iterations (search-state expansions). -/
def matchLoopSteps (q c : List Char) (fl : List Nat) :
    List SearchState → Nat → Nat
  | [], _ => 0
  | _ :: _, 0 => 0
  | _ :: _, 1 => 0
  | s :: stack, fuel + 2 =>
    1 + (match q.get? s.queryOffset with
    | none => 0
    | some ch =>
      match strFind c ch s.candidateOffset with
      | none => matchLoopSteps q c fl stack (fuel + 1)
      | some offset =>
        if (q.drop s.queryOffset).all (fun qc => (c.drop s.candidateOffset).contains qc) then
          if (s.branch offset).1.queryOffset = q.length then
            matchLoopSteps q c fl ((s.branch offset).2 :: stack) (fuel + 1)
          else
            matchLoopSteps q c fl ((s.branch offset).1 :: (s.branch offset).2 :: stack) (fuel + 1)
        else
          matchLoopSteps q c fl stack (fuel + 1))

/-- Number of search-state expansions performed by `_match`. -/
def runMatchSteps (caseSensitive : Bool) (query candidate : List Char) : Nat :=
  let q := foldCase caseSensitive query
  let c := foldCase caseSensitive candidate
  matchLoopSteps q c (wordStarts c) [{}] 10000

/-- Group counting as the specification words it: one more than the number
of adjacent offset pairs that are not consecutive integers. -/
def specGroups (offsets : List Nat) : Nat :=
  1 + (offsets.zip offsets.tail).countP (fun p => decide (p.2 ≠ p.1 + 1))

/-- The scoring rule exactly as the specification words it:
`(offset_count + |offsets ∩ word_start_offsets|) * (1 + normalized_groups²)`
with `normalized_groups = (offset_count - (groups - 1)) / offset_count`. -/
def specScore (fl offsets : List Nat) : ℚ :=
  ((offsets.length : ℚ) + ((fl.filter offsets.contains).length : ℚ)) *
    (1 + (((offsets.length : ℚ) - ((specGroups offsets : ℚ) - 1)) / (offsets.length : ℚ)) ^ 2)

/-- Modelled from the spec: the repository imports `Matcher` from
`textual_autocomplete/matcher.py`, a module absent from the source tree
(only its callers and re-exports are present). Per the specification
(§4.2, §6) `Matcher.match(candidate) -> float` "must produce results
consistent with `FuzzySearch.match` for the same inputs (delegates
directly)", returning `0.0` for no relevance; `get_matches` constructs the
matcher with `case_sensitive=False`. -/
def matcherScore (query candidate : List Char) : ℚ :=
  ((fuzzyMatchPure false query candidate).getD (0, [])).1

/-- One insertion step of a stable descending sort: an element is placed
after every element of greater-or-equal score, before the first strictly
smaller one. -/
def insertDesc (x : List Char × ℚ) : List (List Char × ℚ) → List (List Char × ℚ)
  | [] => [x]
  | y :: ys => if y.2 < x.2 then x :: y :: ys else y :: insertDesc x ys

/-- Stable sort by descending score. A stable sort by a fixed key is
extensionally unique, so this is Python's stable
`list.sort(key=itemgetter(1), reverse=True)` of `get_matches`. -/
def sortDesc (l : List (List Char × ℚ)) : List (List Char × ℚ) :=
  l.foldl (fun acc x => insertDesc x acc) []

/-- Candidates scoring strictly above zero, in input order, paired with
their scores — the `matches_and_scores` list of `get_matches`
(`_autocomplete2.py` lines 598-614) with a dropdown item modelled by its
`main` text. -/
def scoredCandidates (searchString : List Char) (candidates : List (List Char)) :
    List (List Char × ℚ) :=
  candidates.filterMap fun cand =>
    let sc := matcherScore searchString cand
    if 0 < sc then some (cand, sc) else none

/-- Method `AutoComplete.get_matches` (`_autocomplete2.py` lines 577-618):
an empty search string passes all candidates through; otherwise candidates
scoring `> 0` are kept and stably sorted by descending score. -/
def get_matches (searchString : List Char) (candidates : List (List Char)) :
    List (List Char) :=
  if searchString = [] then candidates
  else (sortDesc (scoredCandidates searchString candidates)).map Prod.fst

/-- Score-class filter used to state sort stability. -/
def classFilter (v : ℚ) (l : List (List Char × ℚ)) : List (List Char × ℚ) :=
  l.filter fun p => decide (p.2 = v)

/-- Facts delivered by a successful `candidate.find(ch, start)`. -/
theorem strFind_some {c : List Char} {ch : Char} {start k : Nat}
    (h : strFind c ch start = some k) : start ≤ k ∧ k < c.length := by
  unfold strFind at h
  have hk := List.find?_some h
  have hmem : k ∈ List.range c.length := List.mem_of_find?_eq_some h
  simp only [Bool.and_eq_true, decide_eq_true_eq] at hk
  exact ⟨hk.1, List.mem_range.mp hmem⟩

/-- Case folding does not change the length of a string. -/
theorem foldCase_length (cs : Bool) (s : List Char) :
    (foldCase cs s).length = s.length := by
  unfold foldCase
  split <;> simp

/-- Soundness of the branching-search loop: from a stack of invariant
states it produces (without raising) a list of yields, every one of which
is a completed, strictly increasing, in-bounds alignment carrying its
`score` value. -/
theorem matchLoop_sound (q c : List Char) (fl : List Nat) :
    ∀ (stack : List SearchState) (fuel : Nat),
      (∀ s ∈ stack, StateOK q c s) →
      ∃ ys, matchLoop q c fl stack fuel = some ys ∧ ∀ y ∈ ys, YieldOK fl q c y := by
  intro stack fuel
  induction stack, fuel using matchLoop.induct q c fl with
  | case1 t =>
    exact fun _ => ⟨[], by simp [matchLoop], by simp⟩
  | case2 s stack =>
    exact fun _ => ⟨[], by simp [matchLoop], by simp⟩
  | case3 s stack =>
    exact fun _ => ⟨[], by simp [matchLoop], by simp⟩
  | case4 s stack fuel hget =>
    intro hstack
    have hs := hstack s (List.mem_cons_self s stack)
    have := List.get?_eq_none.mp hget
    exact absurd hs.qo_lt (by omega)
  | case5 s stack fuel ch hget hfind ih =>
    intro hstack
    obtain ⟨ys, hys, hok⟩ := ih fun s' hs' => hstack s' (List.mem_cons_of_mem s hs')
    refine ⟨ys, ?_, hok⟩
    rw [matchLoop]
    simp only [hget, hfind]
    exact hys
  | case6 s stack fuel ch hget offset hfind hsup hqlen ih =>
    intro hstack
    have hs := hstack s (List.mem_cons_self s stack)
    obtain ⟨hstart, hlt⟩ := strFind_some hfind
    have hqlen' : s.queryOffset + 1 = q.length := hqlen
    have hskip : StateOK q c ⟨offset + 1, s.queryOffset, s.offsets⟩ :=
      { chain := hs.chain
        lt_cand := fun o ho => lt_of_lt_of_le (hs.lt_cand o ho) (le_trans hstart (Nat.le_succ offset))
        lt_len := hs.lt_len
        len_eq := hs.len_eq
        qo_lt := hs.qo_lt }
    obtain ⟨ys, hys, hok⟩ := ih fun s' hs' => by
      rcases List.mem_cons.mp hs' with h | h
      · rw [h]; exact hskip
      · exact hstack s' (List.mem_cons_of_mem s h)
    have hchain : List.Chain' (· < ·) (s.offsets ++ [offset]) := by
      rw [List.chain'_append]
      refine ⟨hs.chain, List.chain'_singleton offset, ?_⟩
      intro x hx y' hy'
      simp only [List.head?_cons, Option.mem_def, Option.some.injEq] at hy'
      subst hy'
      have hxmem : x ∈ s.offsets := List.mem_of_mem_getLast? hx
      exact lt_of_lt_of_le (hs.lt_cand x hxmem) hstart
    simp only [SearchState.branch] at hys
    refine ⟨(score fl (s.offsets ++ [offset]), s.offsets ++ [offset]) :: ys, ?_, ?_⟩
    · rw [matchLoop]
      simp only [hget, hfind, SearchState.branch]
      rw [if_pos hsup, if_pos hqlen', hys]
      rfl
    · intro y hy
      rcases List.mem_cons.mp hy with h | h
      · subst h
        refine { chain := hchain, lt_len := ?_, len_eq := ?_, ne_nil := by simp,
                 score_eq := rfl }
        · intro o ho
          rcases List.mem_append.mp ho with h | h
          · exact hs.lt_len o h
          · simp only [List.mem_singleton] at h
            exact h ▸ hlt
        · have := hs.len_eq
          simp only [List.length_append, List.length_singleton]
          omega
      · exact hok y h
  | case7 s stack fuel ch hget offset hfind hsup hqlen ih =>
    intro hstack
    have hs := hstack s (List.mem_cons_self s stack)
    obtain ⟨hstart, hlt⟩ := strFind_some hfind
    have hqlen' : s.queryOffset + 1 ≠ q.length := hqlen
    have hchain : List.Chain' (· < ·) (s.offsets ++ [offset]) := by
      rw [List.chain'_append]
      refine ⟨hs.chain, List.chain'_singleton offset, ?_⟩
      intro x hx y' hy'
      simp only [List.head?_cons, Option.mem_def, Option.some.injEq] at hy'
      subst hy'
      have hxmem : x ∈ s.offsets := List.mem_of_mem_getLast? hx
      exact lt_of_lt_of_le (hs.lt_cand x hxmem) hstart
    have hadv : StateOK q c ⟨offset + 1, s.queryOffset + 1, s.offsets ++ [offset]⟩ :=
      { chain := hchain
        lt_cand := by
          show ∀ o ∈ s.offsets ++ [offset], o < offset + 1
          intro o ho
          rcases List.mem_append.mp ho with h | h
          · have := hs.lt_cand o h
            omega
          · simp only [List.mem_singleton] at h
            omega
        lt_len := by
          show ∀ o ∈ s.offsets ++ [offset], o < c.length
          intro o ho
          rcases List.mem_append.mp ho with h | h
          · exact hs.lt_len o h
          · simp only [List.mem_singleton] at h
            exact h ▸ hlt
        len_eq := by
          show (s.offsets ++ [offset]).length = s.queryOffset + 1
          have := hs.len_eq
          simp only [List.length_append, List.length_singleton]
          omega
        qo_lt := by
          show s.queryOffset + 1 < q.length
          have := hs.qo_lt
          omega }
    have hskip : StateOK q c ⟨offset + 1, s.queryOffset, s.offsets⟩ :=
      { chain := hs.chain
        lt_cand := fun o ho => lt_of_lt_of_le (hs.lt_cand o ho) (le_trans hstart (Nat.le_succ offset))
        lt_len := hs.lt_len
        len_eq := hs.len_eq
        qo_lt := hs.qo_lt }
    obtain ⟨ys, hys, hok⟩ := ih fun s' hs' => by
      rcases List.mem_cons.mp hs' with h | h
      · rw [h]; exact hadv
      · rcases List.mem_cons.mp h with h' | h'
        · rw [h']; exact hskip
        · exact hstack s' (List.mem_cons_of_mem s h')
    simp only [SearchState.branch] at hys
    refine ⟨ys, ?_, hok⟩
    rw [matchLoop]
    simp only [hget, hfind, SearchState.branch]
    rw [if_pos hsup, if_neg hqlen']
    exact hys
  | case8 s stack fuel ch hget offset hfind hsup ih =>
    intro hstack
    obtain ⟨ys, hys, hok⟩ := ih fun s' hs' => hstack s' (List.mem_cons_of_mem s hs')
    refine ⟨ys, ?_, hok⟩
    rw [matchLoop]
    simp only [hget, hfind]
    rw [if_neg hsup]
    exact hys

/-- The word-start offsets form a duplicate-free list. -/
theorem wordStarts_nodup (c : List Char) : (wordStarts c).Nodup :=
  (List.nodup_range _).filter _

/-- The break count of `groups` is at most the number of remaining offsets. -/
theorem groupsAux_le (last : Nat) (l : List Nat) : groupsAux last l ≤ l.length := by
  induction l generalizing last with
  | nil => simp [groupsAux]
  | cons o rest ih =>
    have := ih o
    simp only [groupsAux, List.length_cons]
    split <;> omega

/-- Every offset tuple has at least one group. -/
theorem one_le_groups (l : List Nat) : 1 ≤ groups l := by
  cases l <;> simp [groups]

/-- A non-empty offset tuple has at most one group per offset. -/
theorem groups_le_length (l : List Nat) (h : l ≠ []) : groups l ≤ l.length := by
  cases l with
  | nil => exact absurd rfl h
  | cons x xs =>
    have := groupsAux_le x xs
    simp only [groups, List.length_cons]
    omega

/-- The running maximum of Python `max` is one of the inputs. -/
theorem maxFold_mem (l : List (ℚ × List Nat)) :
    ∀ acc, l.foldl (fun m x => if m.1 < x.1 then x else m) acc ∈ acc :: l := by
  induction l with
  | nil => intro acc; simp
  | cons x l ih =>
    intro acc
    simp only [List.foldl_cons]
    rcases List.mem_cons.mp (ih (if acc.1 < x.1 then x else acc)) with h | h
    · rw [h]
      split
      · exact List.mem_cons_of_mem _ (List.mem_cons_self _ _)
      · exact List.mem_cons_self _ _
    · exact List.mem_cons_of_mem _ (List.mem_cons_of_mem _ h)

/-- The running maximum of Python `max` only grows. -/
theorem maxFold_le (l : List (ℚ × List Nat)) :
    ∀ acc, acc.1 ≤ (l.foldl (fun m x => if m.1 < x.1 then x else m) acc).1 := by
  induction l with
  | nil => intro acc; simp
  | cons x l ih =>
    intro acc
    simp only [List.foldl_cons]
    refine le_trans ?_ (ih _)
    split
    · exact le_of_lt (by assumption)
    · exact le_refl _

/-- The running maximum of Python `max` dominates every input. -/
theorem maxFold_ge_mem (l : List (ℚ × List Nat)) :
    ∀ acc, ∀ y ∈ l, y.1 ≤ (l.foldl (fun m x => if m.1 < x.1 then x else m) acc).1 := by
  induction l with
  | nil => simp
  | cons x l ih =>
    intro acc y hy
    simp only [List.foldl_cons]
    rcases List.mem_cons.mp hy with h | h
    · subst h
      refine le_trans ?_ (maxFold_le l _)
      split
      · exact le_refl _
      · exact le_of_not_lt (by assumption)
    · exact ih _ y h

/-- Python `max` with a non-empty iterable returns a member. -/
theorem maxByScore_mem {ys : List (ℚ × List Nat)} (h : ys ≠ []) : maxByScore ys ∈ ys := by
  cases ys with
  | nil => exact absurd rfl h
  | cons y rest => exact maxFold_mem rest y

/-- Python `max` dominates every member. -/
theorem maxByScore_ge {ys : List (ℚ × List Nat)} (y : ℚ × List Nat) (hy : y ∈ ys) :
    y.1 ≤ (maxByScore ys).1 := by
  cases ys with
  | nil => simp at hy
  | cons z rest =>
    rcases List.mem_cons.mp hy with h | h
    · subst h
      exact maxFold_le rest y
    · exact maxFold_ge_mem rest z y h

/-- The branching search never raises on a non-empty query, and every
yielded pair satisfies the alignment invariant. -/
theorem runMatch_sound (cs : Bool) (q c : List Char) (hq : q ≠ []) :
    ∃ ys, runMatch cs q c = some ys ∧
      ∀ y ∈ ys, YieldOK (wordStarts (foldCase cs c)) (foldCase cs q) (foldCase cs c) y := by
  unfold runMatch
  apply matchLoop_sound
  intro s hs
  simp only [List.mem_singleton] at hs
  subst hs
  exact { chain := List.chain'_nil
          lt_cand := by intro o ho; simp at ho
          lt_len := by intro o ho; simp at ho
          len_eq := rfl
          qo_lt := by rw [foldCase_length]; exact List.length_pos.mpr hq }

/-- A successful `match` result is the sentinel or an invariant-satisfying
yield of the branching search. -/
theorem fuzzyMatch_cases (cs : Bool) (q c : List Char) (r : ℚ × List Nat)
    (hq : q ≠ []) (hr : fuzzyMatchPure cs q c = some r) :
    r = (0, []) ∨
      YieldOK (wordStarts (foldCase cs c)) (foldCase cs q) (foldCase cs c) r := by
  unfold fuzzyMatchPure at hr
  by_cases hacc : regexAccepts cs q c = true
  · rw [if_pos hacc] at hr
    obtain ⟨ys, hys, hok⟩ := runMatch_sound cs q c hq
    rw [hys] at hr
    simp only [Option.map_some', Option.some.injEq] at hr
    cases ys with
    | nil => left; rw [← hr]; rfl
    | cons y rest =>
      right
      rw [← hr]
      exact hok _ (maxByScore_mem (by simp))
  · rw [if_neg hacc] at hr
    simp only [Option.some.injEq] at hr
    exact Or.inl hr.symm

/-- Arithmetic bounds of the scoring formula over exact rationals: with
`1 ≤ g ≤ n` groups and at most one word-start bonus per offset, the score
lies in `[n + 1/n, 4n]`. -/
theorem score_bounds_aux (n g b : Nat) (hn : 1 ≤ n) (hg1 : 1 ≤ g) (hgn : g ≤ n)
    (hbn : b ≤ n) :
    (n : ℚ) + 1 / n ≤
        ((n : ℚ) + b) * (1 + (((n : ℚ) - ((g : ℚ) - 1)) / n) * (((n : ℚ) - ((g : ℚ) - 1)) / n)) ∧
      ((n : ℚ) + b) * (1 + (((n : ℚ) - ((g : ℚ) - 1)) / n) * (((n : ℚ) - ((g : ℚ) - 1)) / n)) ≤
        4 * n := by
  have hN : (0 : ℚ) < n := by exact_mod_cast hn
  have hne : (n : ℚ) ≠ 0 := ne_of_gt hN
  have hG : (1 : ℚ) ≤ g := by exact_mod_cast hg1
  have hGN : (g : ℚ) ≤ n := by exact_mod_cast hgn
  have hB0 : (0 : ℚ) ≤ b := by positivity
  have hBN : (b : ℚ) ≤ n := by exact_mod_cast hbn
  set t : ℚ := ((n : ℚ) - ((g : ℚ) - 1)) / n with ht
  have hnum1 : (1 : ℚ) ≤ (n : ℚ) - ((g : ℚ) - 1) := by linarith
  have hnumN : (n : ℚ) - ((g : ℚ) - 1) ≤ n := by linarith
  have ht1 : t ≤ 1 := by
    rw [ht, div_le_one hN]
    exact hnumN
  have ht0 : 1 / (n : ℚ) ≤ t := by
    rw [ht]
    exact (div_le_div_iff_of_pos_right hN).mpr hnum1
  have htpos : 0 < t := lt_of_lt_of_le (by positivity) ht0
  constructor
  · calc (n : ℚ) + 1 / n = (n : ℚ) * (1 + (1 / n) * (1 / n)) := by
          field_simp
          ring
      _ ≤ (n : ℚ) * (1 + t * t) := by
          have hsq : (1 / (n : ℚ)) * (1 / n) ≤ t * t :=
            mul_le_mul ht0 ht0 (by positivity) (le_of_lt htpos)
          exact mul_le_mul_of_nonneg_left (by linarith) (le_of_lt hN)
      _ ≤ ((n : ℚ) + b) * (1 + t * t) :=
          mul_le_mul_of_nonneg_right (by linarith) (by positivity)
  · have h2 : ((n : ℚ) + b) * (1 + t * t) ≤ (2 * n) * 2 :=
      mul_le_mul (by linarith) (by nlinarith) (by positivity) (by positivity)
    linarith

/-- Bounds of the `score` closure on a strictly increasing non-empty offset
tuple. -/
theorem score_bounds (fl offs : List Nat) (hfl : fl.Nodup)
    (hne : offs ≠ []) :
    (offs.length : ℚ) + 1 / offs.length ≤ score fl offs ∧
      score fl offs ≤ 4 * offs.length := by
  have hb : (fl.filter offs.contains).length ≤ offs.length := by
    have hnodup : (fl.filter offs.contains).Nodup := hfl.filter _
    have hsub : (fl.filter offs.contains) ⊆ offs := by
      intro x hx
      rw [List.mem_filter] at hx
      simpa using hx.2
    exact (hnodup.subperm hsub).length_le
  have hg1 := one_le_groups offs
  have hgn := groups_le_length offs hne
  have hn : 1 ≤ offs.length := List.length_pos.mpr hne
  exact score_bounds_aux offs.length (groups offs) ((fl.filter offs.contains).length)
    hn hg1 hgn hb

/-- **C4** — for every non-empty query and candidate, a returned result
with positive score has strictly increasing offsets, exactly one offset per
query character, and all offsets inside the candidate. -/
theorem match_offsets_invariant (cs : Bool) (q c : List Char) (r : ℚ × List Nat)
    (hq : q ≠ []) (hr : fuzzyMatchPure cs q c = some r) (hpos : 0 < r.1) :
    List.Chain' (· < ·) r.2 ∧ r.2.length = q.length ∧ ∀ o ∈ r.2, o < c.length := by
  rcases fuzzyMatch_cases cs q c r hq hr with h | h
  · rw [h] at hpos
    norm_num at hpos
  · refine ⟨h.chain, ?_, ?_⟩
    · rw [h.len_eq, foldCase_length]
    · intro o ho
      have := h.lt_len o ho
      rwa [foldCase_length] at this

/-- Witness for `match_offsets_invariant` at query `"ab"`, candidate `"ab"`. -/
theorem match_offsets_invariant_witness :
    List.Chain' (· < ·) ([0, 1] : List Nat) ∧
      ([0, 1] : List Nat).length = ("ab".toList).length ∧
      ∀ o ∈ ([0, 1] : List Nat), o < ("ab".toList).length :=
  match_offsets_invariant false "ab".toList "ab".toList (6, [0, 1])
    (by decide) (by with_unfolding_all decide) (by norm_num)

/-- **C10** — every returned result with non-empty offsets has its score in
`[len(q) + 1/len(q), 4·len(q)]`; in particular it is positive, so the
`(0.0, ())` sentinel is never a genuine alignment. -/
theorem match_score_bounds (cs : Bool) (q c : List Char) (r : ℚ × List Nat)
    (hq : q ≠ []) (hr : fuzzyMatchPure cs q c = some r) (hne : r.2 ≠ []) :
    ((q.length : ℚ) + 1 / q.length ≤ r.1 ∧ r.1 ≤ 4 * q.length) ∧ 0 < r.1 := by
  rcases fuzzyMatch_cases cs q c r hq hr with h | h
  · rw [h] at hne
    simp at hne
  · have hlen : r.2.length = q.length := by rw [h.len_eq, foldCase_length]
    have hb := score_bounds (wordStarts (foldCase cs c)) r.2 (wordStarts_nodup _) h.ne_nil
    rw [hlen] at hb
    rw [h.score_eq]
    have hq1 : 1 ≤ q.length := List.length_pos.mpr hq
    have hQ : (0 : ℚ) < q.length := by exact_mod_cast hq1
    refine ⟨hb, lt_of_lt_of_le (by positivity) hb.1⟩

/-- Witness for `match_score_bounds` at query `"a"`, candidate `"ab"`. -/
theorem match_score_bounds_witness :
    ((("a".toList.length : ℚ) + 1 / "a".toList.length ≤ (4 : ℚ) ∧
        (4 : ℚ) ≤ 4 * "a".toList.length) ∧ (0 : ℚ) < 4) :=
  match_score_bounds false "a".toList "ab".toList (4, [0])
    (by decide) (by with_unfolding_all decide) (by decide)

/-- The loop executes fewer iterations than its starting fuel. -/
theorem matchLoopSteps_le (q c : List Char) (fl : List Nat) :
    ∀ (fuel : Nat) (stack : List SearchState),
      matchLoopSteps q c fl stack fuel ≤ fuel - 1 := by
  intro fuel
  induction fuel using Nat.strong_induction_on with
  | _ fuel ih =>
    intro stack
    match stack, fuel with
    | [], t => simp [matchLoopSteps]
    | s :: stack, 0 => simp [matchLoopSteps]
    | s :: stack, 1 => simp [matchLoopSteps]
    | s :: stack, (fuel + 2) =>
      have h1 := ih (fuel + 1) (by omega)
      cases hget : q.get? s.queryOffset with
      | none =>
        rw [matchLoopSteps]
        simp only [hget]
        omega
      | some ch =>
        cases hfind : strFind c ch s.candidateOffset with
        | none =>
          rw [matchLoopSteps]
          simp only [hget, hfind]
          have := h1 stack
          omega
        | some offset =>
          by_cases hsup :
              ((q.drop s.queryOffset).all
                fun qc => (c.drop s.candidateOffset).contains qc) = true
          · by_cases hqlen : (s.branch offset).1.queryOffset = q.length
            · rw [matchLoopSteps]
              simp only [hget, hfind]
              rw [if_pos hsup, if_pos hqlen]
              have := h1 ((s.branch offset).2 :: stack)
              omega
            · rw [matchLoopSteps]
              simp only [hget, hfind]
              rw [if_pos hsup, if_neg hqlen]
              have := h1 ((s.branch offset).1 :: (s.branch offset).2 :: stack)
              omega
          · rw [matchLoopSteps]
            simp only [hget, hfind]
            rw [if_neg hsup]
            have := h1 stack
            omega

/-- **C5** — for every non-empty query and candidate the branching search
performs at most 10,000 search-state expansions, never raises, and the
returned value is the best-scoring alignment found (the `(0, ())` sentinel
when none was completed). -/
theorem match_search_capped (cs : Bool) (q c : List Char) (hq : q ≠ []) :
    runMatchSteps cs q c ≤ 10000 ∧
      ∃ ys, runMatch cs q c = some ys ∧
        fuzzyMatchPure cs q c ≠ none ∧
        (regexAccepts cs q c = true → fuzzyMatchPure cs q c = some (maxByScore ys)) ∧
        (regexAccepts cs q c = false → fuzzyMatchPure cs q c = some (0, [])) ∧
        (ys = [] → maxByScore ys = (0, [])) ∧
        (ys ≠ [] → maxByScore ys ∈ ys ∧ ∀ y ∈ ys, y.1 ≤ (maxByScore ys).1) := by
  obtain ⟨ys, hys, hok⟩ := runMatch_sound cs q c hq
  refine ⟨le_trans (matchLoopSteps_le _ _ _ _ _) (by omega), ys, hys, ?_, ?_, ?_, ?_, ?_⟩
  · unfold fuzzyMatchPure
    split
    · rw [hys]
      simp
    · simp
  · intro hacc
    unfold fuzzyMatchPure
    rw [if_pos hacc, hys]
    rfl
  · intro hacc
    unfold fuzzyMatchPure
    rw [if_neg (by simp [hacc])]
  · intro hnil
    subst hnil
    rfl
  · intro hne
    exact ⟨maxByScore_mem hne, fun y hy => maxByScore_ge y hy⟩

/-- Witness for `match_search_capped` at query `"a"`, candidate `"ab"`. -/
theorem match_search_capped_witness :
    runMatchSteps false "a".toList "ab".toList ≤ 10000 ∧
      ∃ ys, runMatch false "a".toList "ab".toList = some ys ∧
        fuzzyMatchPure false "a".toList "ab".toList ≠ none ∧
        (regexAccepts false "a".toList "ab".toList = true →
          fuzzyMatchPure false "a".toList "ab".toList = some (maxByScore ys)) ∧
        (regexAccepts false "a".toList "ab".toList = false →
          fuzzyMatchPure false "a".toList "ab".toList = some (0, [])) ∧
        (ys = [] → maxByScore ys = (0, [])) ∧
        (ys ≠ [] → maxByScore ys ∈ ys ∧ ∀ y ∈ ys, y.1 ≤ (maxByScore ys).1) :=
  match_search_capped false "a".toList "ab".toList (by decide)

/-- The code's fold agrees with the specification's pair count. -/
theorem groupsAux_eq (x : Nat) (xs : List Nat) :
    groupsAux x xs = ((x :: xs).zip xs).countP (fun p => decide (p.2 ≠ p.1 + 1)) := by
  induction xs generalizing x with
  | nil => rfl
  | cons o rest ih =>
    have ih2 := ih o
    by_cases h : o = x + 1 <;>
      simp [groupsAux, List.zip_cons_cons, List.countP_cons, h] at ih2 ⊢ <;>
      omega

/-- The code's `groups` property equals the specification's run count. -/
theorem groups_eq_specGroups (offsets : List Nat) : groups offsets = specGroups offsets := by
  cases offsets with
  | nil => rfl
  | cons x xs => simp only [groups, specGroups, List.tail_cons, groupsAux_eq x xs]

/-- The code's `score` closure computes the specification's formula. -/
theorem score_eq_specScore (fl offsets : List Nat) :
    score fl offsets = specScore fl offsets := by
  unfold score specScore
  rw [groups_eq_specGroups, sq]

/-- **C2** — every completed alignment yielded by the branching search
carries the specification's score
`(offset_count + |offsets ∩ word_start_offsets|) * (1 + normalized_groups²)`
computed over the word starts of the case-folded candidate, and `match`
returns the maximum-scoring yielded alignment. -/
theorem match_yield_scores_and_max (cs : Bool) (q c : List Char) (hq : q ≠ []) :
    ∃ ys, runMatch cs q c = some ys ∧
      (∀ y ∈ ys, y.1 = specScore (wordStarts (foldCase cs c)) y.2) ∧
      (regexAccepts cs q c = true →
        fuzzyMatchPure cs q c = some (maxByScore ys) ∧
          (ys ≠ [] → maxByScore ys ∈ ys ∧ ∀ y ∈ ys, y.1 ≤ (maxByScore ys).1)) := by
  obtain ⟨ys, hys, hok⟩ := runMatch_sound cs q c hq
  refine ⟨ys, hys, ?_, ?_⟩
  · intro y hy
    rw [(hok y hy).score_eq, score_eq_specScore]
  · intro hacc
    refine ⟨?_, fun hne => ⟨maxByScore_mem hne, fun y hy => maxByScore_ge y hy⟩⟩
    unfold fuzzyMatchPure
    rw [if_pos hacc, hys]
    rfl

/-- Witness for `match_yield_scores_and_max` at query `"a"`, candidate `"ab"`. -/
theorem match_yield_scores_and_max_witness :
    ∃ ys, runMatch false "a".toList "ab".toList = some ys ∧
      (∀ y ∈ ys, y.1 = specScore (wordStarts (foldCase false "ab".toList)) y.2) ∧
      (regexAccepts false "a".toList "ab".toList = true →
        fuzzyMatchPure false "a".toList "ab".toList = some (maxByScore ys) ∧
          (ys ≠ [] → maxByScore ys ∈ ys ∧ ∀ y ∈ ys, y.1 ≤ (maxByScore ys).1)) :=
  match_yield_scores_and_max false "a".toList "ab".toList (by decide)

/-- **C1** — when the (case-folded per the flag) query is not a subsequence
of the candidate, `match` returns exactly the `(0.0, ())` sentinel via the
regex fast-rejection path: the conclusion holds for an arbitrary cache
state and leaves the cache bit-for-bit unchanged, so the cache is neither
read nor written and the branching search is never consulted. -/
theorem match_fast_reject (cs : Bool) (q c : List Char) (cache : Cache) (hq : q ≠ [])
    (hsub : ¬ List.Sublist (foldCase cs q) (foldCase cs c)) :
    matchWithCache cs q c cache = some ((0, []), cache) := by
  have hacc : regexAccepts cs q c = false := by
    unfold regexAccepts
    rw [Bool.eq_false_iff]
    intro h
    exact hsub (List.isSublist_iff_sublist.mp h)
  unfold matchWithCache
  rw [if_neg (by simp [hacc])]

/-- Witness for `match_fast_reject` at query `"z"`, candidate `"ab"`. -/
theorem match_fast_reject_witness :
    matchWithCache true "z".toList "ab".toList [] = some ((0, []), []) :=
  match_fast_reject true "z".toList "ab".toList [] (by decide)
    (fun h => absurd (List.isSublist_iff_sublist.mpr h) (by decide))

/-- Unfolding of a cache hit: the hit entry is a member with the looked-up
key, and the returned cache moves it to the front. -/
theorem cacheGet_some {cache : Cache} {k : CacheKey} {v : ℚ × List Nat} {cache' : Cache}
    (h : cacheGet cache k = some (v, cache')) :
    ∃ e ∈ cache, e.1 = k ∧ e.2 = v ∧
      cache' = e :: cache.filter (fun e2 => !(e2.1 == k)) := by
  unfold cacheGet at h
  cases hfind : cache.find? (fun e => e.1 == k) with
  | none =>
    rw [hfind] at h
    simp at h
  | some e =>
    rw [hfind] at h
    simp only [Option.some.injEq, Prod.mk.injEq] at h
    have hmem := List.mem_of_find?_eq_some hfind
    have hbeq : (e.1 == k) = true := by
      have h3 := List.find?_some hfind
      simpa using h3
    exact ⟨e, hmem, eq_of_beq hbeq, h.1, h.2.symm⟩

/-- **C6** — the cache is observably invisible: against any coherent cache
state (in particular any state obtained by evicting entries), `match`
returns exactly the pure (cache-free) computation's result, and it leaves
the cache coherent; repeated calls therefore return identical results on
both the cached and the freshly computed paths. -/
theorem match_cache_transparent (cs : Bool) (q c : List Char) (cache : Cache)
    (hok : CacheOK cache) :
    (matchWithCache cs q c cache).map Prod.fst = fuzzyMatchPure cs q c ∧
      ∀ p ∈ matchWithCache cs q c cache, CacheOK p.2 := by
  by_cases hacc : regexAccepts cs q c = true
  · unfold matchWithCache
    rw [if_pos hacc]
    cases hget : cacheGet cache (q, c, cs) with
    | some vc =>
      obtain ⟨v, cache'⟩ := vc
      obtain ⟨e, hmem, hkey, hv, hc'⟩ := cacheGet_some hget
      have hpure : fuzzyMatchPure cs q c = some v := by
        have h0 := hok e hmem
        rw [hkey, hv] at h0
        exact h0
      constructor
      · simp only [Option.map_some']
        exact hpure.symm
      · intro p hp
        simp only [Option.mem_def, Option.some.injEq] at hp
        subst hp
        intro e2 he2
        rw [hc'] at he2
        rcases List.mem_cons.mp he2 with h | h
        · rw [h]
          exact hok e hmem
        · exact hok e2 (List.mem_of_mem_filter h)
    | none =>
      cases hrun : (runMatch cs q c).map maxByScore with
      | none =>
        constructor
        · simp only [Option.map_none']
          unfold fuzzyMatchPure
          rw [if_pos hacc, hrun]
        · intro p hp
          simp at hp
      | some r =>
        constructor
        · simp only [Option.map_some']
          unfold fuzzyMatchPure
          rw [if_pos hacc, hrun]
        · intro p hp
          simp only [Option.mem_def, Option.some.injEq] at hp
          subst hp
          intro e2 he2
          unfold cacheInsert at he2
          have he3 := List.mem_of_mem_take he2
          rcases List.mem_cons.mp he3 with h | h
          · subst h
            show fuzzyMatchPure cs q c = some r
            unfold fuzzyMatchPure
            rw [if_pos hacc, hrun]
          · exact hok e2 (List.mem_of_mem_filter h)
  · unfold matchWithCache
    rw [if_neg hacc]
    constructor
    · simp only [Option.map_some']
      unfold fuzzyMatchPure
      rw [if_neg hacc]
    · intro p hp
      simp only [Option.mem_def, Option.some.injEq] at hp
      subst hp
      exact hok

/-- Witness for `match_cache_transparent`: fresh (empty, trivially
coherent) cache at query `"a"`, candidate `"ab"`. -/
theorem match_cache_transparent_witness :
    (matchWithCache false "a".toList "ab".toList []).map Prod.fst =
        fuzzyMatchPure false "a".toList "ab".toList ∧
      ∀ p ∈ matchWithCache false "a".toList "ab".toList [], CacheOK p.2 :=
  match_cache_transparent false "a".toList "ab".toList []
    (fun e he => absurd he (List.not_mem_nil e))

/-- The branching search raises (models `IndexError`) on an empty query. -/
theorem runMatch_nil (cs : Bool) (c : List Char) : runMatch cs [] c = none := by
  have h : foldCase cs ([] : List Char) = [] := by
    unfold foldCase
    split <;> simp
  unfold runMatch
  rw [h]
  rw [show (10000 : Nat) = 9998 + 2 by norm_num, matchLoop]
  simp

/-- **C9** — an empty query passes the regex fast-rejection (the empty
pattern matches every candidate), and then `match` fails loudly: the
branching search raises `IndexError` when indexing the first query
character, before any result is produced or cached. -/
theorem match_empty_query_raises (cs : Bool) (c : List Char) (cache : Cache)
    (hok : CacheOK cache) :
    regexAccepts cs [] c = true ∧ matchWithCache cs [] c cache = none := by
  have h : foldCase cs ([] : List Char) = [] := by
    unfold foldCase
    split <;> simp
  have hacc : regexAccepts cs [] c = true := by
    unfold regexAccepts
    rw [h]
    cases foldCase cs c <;> rfl
  have hpure : fuzzyMatchPure cs [] c = none := by
    unfold fuzzyMatchPure
    rw [if_pos hacc, runMatch_nil]
    rfl
  refine ⟨hacc, ?_⟩
  unfold matchWithCache
  rw [if_pos hacc]
  cases hget : cacheGet cache ([], c, cs) with
  | some vc =>
    obtain ⟨v, cache'⟩ := vc
    obtain ⟨e, hmem, hkey, hv, _⟩ := cacheGet_some hget
    have h0 := hok e hmem
    rw [hkey, hv] at h0
    rw [hpure] at h0
    exact absurd h0 (by simp)
  | none =>
    rw [runMatch_nil]
    rfl

/-- Witness for `match_empty_query_raises`: empty (trivially coherent)
cache, candidate `"abc"`. -/
theorem match_empty_query_raises_witness :
    regexAccepts false [] "abc".toList = true ∧
      matchWithCache false [] "abc".toList [] = none :=
  match_empty_query_raises false "abc".toList []
    (fun e he => absurd he (List.not_mem_nil e))

/-- **C8** — query `"ABC"` against candidate `"xxabcxx"`: the
case-insensitive search scores `6 > 0` (offsets 2,3,4), while the
case-sensitive search returns exactly the `(0.0, ())` sentinel. -/
theorem match_case_sensitivity_concrete :
    (matchWithCache false "ABC".toList "xxabcxx".toList []).map Prod.fst =
        some (6, [2, 3, 4]) ∧
      (0 : ℚ) < 6 ∧
      matchWithCache true "ABC".toList "xxabcxx".toList [] = some ((0, []), []) := by
  refine ⟨by with_unfolding_all decide, by norm_num, by with_unfolding_all decide⟩

/-- **C3 counterexample** — the query `"ab"` occurs contiguously in the
candidate `"a b xab"` (offsets 5,6), yet `match` returns the scattered
alignment `[0, 2]` (two groups, not one contiguous run), and its score `5`
strictly exceeds the contiguous alignment's score `4`: the word-start
bonus of the scattered alignment outweighs the contiguity boost. -/
theorem match_contiguous_counterexample :
    ("a b x".toList ++ "ab".toList = "a b xab".toList) ∧
      fuzzyMatchPure false "ab".toList "a b xab".toList = some (5, [0, 2]) ∧
      groups [0, 2] = 2 ∧
      score (wordStarts (foldCase false "a b xab".toList)) [5, 6] = 4 ∧
      (4 : ℚ) < 5 := by
  refine ⟨by decide, by with_unfolding_all decide, by decide,
    by with_unfolding_all decide, by norm_num⟩

/-- Strict comparison of the two multiplier shapes over the rationals. -/
theorem contig_aux (N G B : ℚ) (hG2 : 2 ≤ G) (hGN : G ≤ N) (hB0 : 0 ≤ B) :
    (N + B) * (1 + ((N - (G - 1)) / N) * ((N - (G - 1)) / N)) < (N + B) * 2 := by
  have hN : (0 : ℚ) < N := by linarith
  have hNe : N ≠ 0 := ne_of_gt hN
  set t : ℚ := (N - (G - 1)) / N with ht
  have htn : t ≤ (N - 1) / N := by
    rw [ht]
    exact (div_le_div_iff_of_pos_right hN).mpr (by linarith)
  have ht1 : t < 1 := lt_of_le_of_lt htn (by rw [div_lt_one hN]; linarith)
  have ht0 : 0 < t := by
    rw [ht]
    exact div_pos (by linarith) hN
  have htt : t * t < 1 := by nlinarith
  have hNB : 0 < N + B := by linarith
  have := mul_lt_mul_of_pos_left (show 1 + t * t < 2 by linarith) hNB
  linarith

/-- **C3 amended** — a completed alignment whose offsets form a single
contiguous run (`groups = 1`) receives the maximal multiplier `2` and
strictly outscores every scattered alignment (`groups ≥ 2`) of the same
query length that matches the same number of word-start offsets; the
counterexample above shows the strict dominance fails (and the returned
offsets need not be contiguous) when the scattered alignment collects
more word-start bonus. -/
theorem contiguous_beats_scattered (fl o1 o2 : List Nat) (h1 : o1 ≠ [])
    (hlen : o1.length = o2.length) (hg1 : groups o1 = 1) (hg2 : 2 ≤ groups o2)
    (hb : (fl.filter o1.contains).length = (fl.filter o2.contains).length) :
    score fl o2 < score fl o1 := by
  have h2 : o2 ≠ [] := by
    intro h
    rw [h] at hlen
    simp at hlen
    exact h1 hlen
  have hnn : 1 ≤ o1.length := List.length_pos.mpr h1
  have hgle : groups o2 ≤ o2.length := groups_le_length o2 h2
  have hN : (0 : ℚ) < o1.length := by exact_mod_cast hnn
  have hNe : (o1.length : ℚ) ≠ 0 := ne_of_gt hN
  have e1 : score fl o1 = ((o1.length : ℚ) + ((fl.filter o1.contains).length : ℚ)) * 2 := by
    unfold score
    dsimp only
    rw [hg1]
    push_cast
    rw [sub_self, sub_zero, div_self hNe]
    ring
  have e2 : score fl o2 =
      ((o1.length : ℚ) + ((fl.filter o1.contains).length : ℚ)) *
        (1 + (((o1.length : ℚ) - ((groups o2 : ℚ) - 1)) / (o1.length : ℚ)) *
          (((o1.length : ℚ) - ((groups o2 : ℚ) - 1)) / (o1.length : ℚ))) := by
    unfold score
    dsimp only
    rw [← hlen, ← hb]
  rw [e1, e2]
  exact contig_aux (o1.length : ℚ) (groups o2 : ℚ) ((fl.filter o1.contains).length : ℚ)
    (by exact_mod_cast hg2) (by exact_mod_cast (hlen ▸ hgle)) (by positivity)

/-- Witness for `contiguous_beats_scattered`: contiguous `[5, 6]` versus
scattered `[0, 2]` with no word starts. -/
theorem contiguous_beats_scattered_witness :
    score [] [0, 2] < score [] [5, 6] :=
  contiguous_beats_scattered [] [5, 6] [0, 2] (by decide) (by decide) (by decide)
    (by decide) (by decide)

/-- Inserting permutes. -/
theorem insertDesc_perm (x : List Char × ℚ) (l : List (List Char × ℚ)) :
    List.Perm (insertDesc x l) (x :: l) := by
  induction l with
  | nil => exact List.Perm.refl _
  | cons y ys ih =>
    unfold insertDesc
    split
    · exact List.Perm.refl _
    · exact List.Perm.trans (List.Perm.cons y ih) (List.Perm.swap x y ys)

/-- The sort's fold permutes. -/
theorem sortDescAux_perm (l : List (List Char × ℚ)) :
    ∀ acc, List.Perm (l.foldl (fun a x => insertDesc x a) acc) (acc ++ l) := by
  induction l with
  | nil => intro acc; simp
  | cons x l ih =>
    intro acc
    simp only [List.foldl_cons]
    refine List.Perm.trans (ih (insertDesc x acc)) ?_
    refine List.Perm.trans (List.Perm.append_right l (insertDesc_perm x acc)) ?_
    exact List.perm_middle.symm

/-- The sort is a permutation. -/
theorem sortDesc_perm (l : List (List Char × ℚ)) : List.Perm (sortDesc l) l := by
  have := sortDescAux_perm l []
  simpa [sortDesc] using this

/-- Inserting preserves the descending order. -/
theorem insertDesc_pairwise {x : List Char × ℚ} {l : List (List Char × ℚ)}
    (hl : List.Pairwise (fun a b => b.2 ≤ a.2) l) :
    List.Pairwise (fun a b => b.2 ≤ a.2) (insertDesc x l) := by
  induction l with
  | nil => simp [insertDesc]
  | cons y ys ih =>
    rcases List.pairwise_cons.mp hl with ⟨hy, hys⟩
    unfold insertDesc
    split
    · rename_i h
      refine List.pairwise_cons.mpr ⟨?_, hl⟩
      intro z hz
      rcases List.mem_cons.mp hz with h' | h'
      · rw [h']
        exact le_of_lt h
      · exact le_trans (hy z h') (le_of_lt h)
    · rename_i h
      refine List.pairwise_cons.mpr ⟨?_, ih hys⟩
      intro z hz
      rcases List.mem_cons.mp ((insertDesc_perm x ys).mem_iff.mp hz) with h' | h'
      · rw [h']
        exact le_of_not_lt h
      · exact hy z h'

/-- The sort's fold keeps the accumulator descending. -/
theorem sortDescAux_pairwise (l : List (List Char × ℚ)) :
    ∀ acc, List.Pairwise (fun a b => b.2 ≤ a.2) acc →
      List.Pairwise (fun a b => b.2 ≤ a.2) (l.foldl (fun a x => insertDesc x a) acc) := by
  induction l with
  | nil => exact fun acc h => h
  | cons x l ih =>
    intro acc hacc
    simp only [List.foldl_cons]
    exact ih _ (insertDesc_pairwise hacc)

/-- The sorted list is pairwise descending. -/
theorem sortDesc_pairwise (l : List (List Char × ℚ)) :
    List.Pairwise (fun a b => b.2 ≤ a.2) (sortDesc l) :=
  sortDescAux_pairwise l [] List.Pairwise.nil

/-- Stability of one insertion: within a score class, the new element goes
last; other classes are untouched. -/
theorem insertDesc_classFilter (v : ℚ) (x : List Char × ℚ) :
    ∀ l, List.Pairwise (fun a b => b.2 ≤ a.2) l →
      classFilter v (insertDesc x l) =
        if x.2 = v then classFilter v l ++ [x] else classFilter v l := by
  intro l
  induction l with
  | nil =>
    intro _
    by_cases h : x.2 = v <;> simp [insertDesc, classFilter, h]
  | cons y ys ih =>
    intro hl
    rcases List.pairwise_cons.mp hl with ⟨hy, hys⟩
    unfold insertDesc
    split
    · rename_i hxy
      by_cases h : x.2 = v
      · have hnil : List.filter (fun p => decide (p.2 = v)) (y :: ys) = [] := by
          rw [List.filter_eq_nil_iff]
          intro z hz
          simp only [decide_eq_true_eq]
          intro hzv
          rcases List.mem_cons.mp hz with h' | h'
          · rw [h'] at hzv
            rw [← h] at hzv
            exact absurd hzv (ne_of_lt hxy)
          · have hzy := hy z h'
            rw [hzv, ← h] at hzy
            exact absurd (lt_of_lt_of_le hxy hzy) (lt_irrefl _)
        rw [if_pos h]
        unfold classFilter
        rw [hnil]
        simp [List.filter_cons, h, hnil]
      · rw [if_neg h]
        unfold classFilter
        simp [List.filter_cons, h]
    · rename_i hxy
      have ih2 := ih hys
      unfold classFilter at ih2 ⊢
      by_cases hx : x.2 = v
      · rw [if_pos hx] at ih2 ⊢
        by_cases hy2 : y.2 = v <;> simp [List.filter_cons, hx, hy2, ih2]
      · rw [if_neg hx] at ih2 ⊢
        by_cases hy2 : y.2 = v <;> simp [List.filter_cons, hx, hy2, ih2]

/-- Stability of the sort's fold. -/
theorem sortDescAux_classFilter (v : ℚ) (l : List (List Char × ℚ)) :
    ∀ acc, List.Pairwise (fun a b => b.2 ≤ a.2) acc →
      classFilter v (l.foldl (fun a x => insertDesc x a) acc) =
        classFilter v acc ++ classFilter v l := by
  induction l with
  | nil =>
    intro acc _
    simp [classFilter]
  | cons x l ih =>
    intro acc hacc
    simp only [List.foldl_cons]
    rw [ih _ (insertDesc_pairwise hacc), insertDesc_classFilter v x acc hacc]
    by_cases hx : x.2 = v <;> simp [classFilter, List.filter_cons, hx, List.append_assoc]

/-- The sort is stable: every score class keeps its input order. -/
theorem sortDesc_classFilter (v : ℚ) (l : List (List Char × ℚ)) :
    classFilter v (sortDesc l) = classFilter v l := by
  have := sortDescAux_classFilter v l [] List.Pairwise.nil
  simpa [sortDesc, classFilter] using this

/-- Every scored pair carries the score of its candidate, strictly
positive. -/
theorem scoredCandidates_mem {s : List Char} {cands : List (List Char)}
    {p : List Char × ℚ} (hp : p ∈ scoredCandidates s cands) :
    p.2 = matcherScore s p.1 ∧ 0 < p.2 := by
  unfold scoredCandidates at hp
  rcases List.mem_filterMap.mp hp with ⟨a, _, hfa⟩
  dsimp only at hfa
  by_cases h : 0 < matcherScore s a
  · rw [if_pos h] at hfa
    simp only [Option.some.injEq] at hfa
    rw [← hfa]
    exact ⟨rfl, h⟩
  · rw [if_neg h] at hfa
    simp at hfa

/-- Stripping the scores recovers exactly the positively scoring
candidates, in order. -/
theorem scoredCandidates_map_fst (s : List Char) (cands : List (List Char)) :
    (scoredCandidates s cands).map Prod.fst =
      cands.filter fun cand => decide (0 < matcherScore s cand) := by
  induction cands with
  | nil => rfl
  | cons cand l ih =>
    by_cases h : 0 < matcherScore s cand <;>
      simp [scoredCandidates, List.filterMap_cons, List.filter_cons, h] <;>
      simpa [scoredCandidates] using ih

/-- A score class of the scored list is the input-ordered list of kept
candidates of that score. -/
theorem scoredCandidates_classFilter (v : ℚ) (s : List Char) (cands : List (List Char)) :
    (classFilter v (scoredCandidates s cands)).map Prod.fst =
      (cands.filter fun cand => decide (0 < matcherScore s cand)).filter
        fun cand => decide (matcherScore s cand = v) := by
  induction cands with
  | nil => rfl
  | cons cand l ih =>
    by_cases h : 0 < matcherScore s cand
    · have hstep : scoredCandidates s (cand :: l) =
          (cand, matcherScore s cand) :: scoredCandidates s l := by
        unfold scoredCandidates
        rw [List.filterMap_cons]
        dsimp only
        rw [if_pos h]
      have hr : List.filter (fun c0 => decide (0 < matcherScore s c0)) (cand :: l) =
          cand :: List.filter (fun c0 => decide (0 < matcherScore s c0)) l := by
        simp [List.filter_cons, h]
      rw [hstep, hr]
      by_cases hv : matcherScore s cand = v
      · have hl : classFilter v ((cand, matcherScore s cand) :: scoredCandidates s l) =
            (cand, matcherScore s cand) :: classFilter v (scoredCandidates s l) := by
          simp [classFilter, List.filter_cons, hv]
        have hq : List.filter (fun c0 => decide (matcherScore s c0 = v))
              (cand :: List.filter (fun c0 => decide (0 < matcherScore s c0)) l) =
            cand :: List.filter (fun c0 => decide (matcherScore s c0 = v))
              (List.filter (fun c0 => decide (0 < matcherScore s c0)) l) := by
          simp [List.filter_cons, hv]
        rw [hl, hq, List.map_cons, ih]
      · have hl : classFilter v ((cand, matcherScore s cand) :: scoredCandidates s l) =
            classFilter v (scoredCandidates s l) := by
          simp [classFilter, List.filter_cons, hv]
        have hq : List.filter (fun c0 => decide (matcherScore s c0 = v))
              (cand :: List.filter (fun c0 => decide (0 < matcherScore s c0)) l) =
            List.filter (fun c0 => decide (matcherScore s c0 = v))
              (List.filter (fun c0 => decide (0 < matcherScore s c0)) l) := by
          simp [List.filter_cons, hv]
        rw [hl, hq, ih]
    · have hstep : scoredCandidates s (cand :: l) = scoredCandidates s l := by
        unfold scoredCandidates
        rw [List.filterMap_cons]
        dsimp only
        rw [if_neg h]
      have hr : List.filter (fun c0 => decide (0 < matcherScore s c0)) (cand :: l) =
          List.filter (fun c0 => decide (0 < matcherScore s c0)) l := by
        simp [List.filter_cons, h]
      rw [hstep, hr, ih]

/-- **C7** — for a non-empty search string, `get_matches` returns exactly
the candidates of strictly positive score (a permutation of the
input-order filter), in descending score order, and candidates of equal
score keep their input order (each score class of the output equals the
input-order filter of that class). -/
theorem get_matches_spec (s : List Char) (cands : List (List Char)) (hs : s ≠ []) :
    List.Perm (get_matches s cands)
        (cands.filter fun cand => decide (0 < matcherScore s cand)) ∧
      List.Pairwise (fun a b => matcherScore s b ≤ matcherScore s a) (get_matches s cands) ∧
      ∀ v : ℚ, (get_matches s cands).filter (fun cand => decide (matcherScore s cand = v)) =
        (cands.filter fun cand => decide (0 < matcherScore s cand)).filter
          fun cand => decide (matcherScore s cand = v) := by
  have hmem : ∀ p ∈ sortDesc (scoredCandidates s cands),
      p.2 = matcherScore s p.1 ∧ 0 < p.2 := by
    intro p hp
    exact scoredCandidates_mem ((sortDesc_perm _).mem_iff.mp hp)
  unfold get_matches
  rw [if_neg hs]
  refine ⟨?_, ?_, ?_⟩
  · refine List.Perm.trans (List.Perm.map Prod.fst (sortDesc_perm _)) ?_
    rw [scoredCandidates_map_fst]
  · rw [List.pairwise_map]
    refine List.Pairwise.imp_of_mem ?_ (sortDesc_pairwise (scoredCandidates s cands))
    intro a b ha hb hle
    rw [← (hmem a ha).1, ← (hmem b hb).1]
    exact hle
  · intro v
    rw [List.filter_map]
    have hcongr : (sortDesc (scoredCandidates s cands)).filter
          ((fun cand => decide (matcherScore s cand = v)) ∘ Prod.fst) =
        classFilter v (sortDesc (scoredCandidates s cands)) := by
      unfold classFilter
      refine List.filter_congr ?_
      intro p hp
      simp only [Function.comp_apply, decide_eq_decide]
      rw [(hmem p hp).1]
    rw [hcongr, sortDesc_classFilter, scoredCandidates_classFilter]

/-- Witness for `get_matches_spec` at search string `"a"` and candidates
`["alpha", "beta", "gamma"]`. -/
theorem get_matches_spec_witness :
    List.Perm (get_matches "a".toList ["alpha".toList, "beta".toList, "gamma".toList])
        (["alpha".toList, "beta".toList, "gamma".toList].filter fun cand =>
          decide (0 < matcherScore "a".toList cand)) ∧
      List.Pairwise
        (fun a b => matcherScore "a".toList b ≤ matcherScore "a".toList a)
        (get_matches "a".toList ["alpha".toList, "beta".toList, "gamma".toList]) ∧
      ∀ v : ℚ,
        (get_matches "a".toList ["alpha".toList, "beta".toList, "gamma".toList]).filter
            (fun cand => decide (matcherScore "a".toList cand = v)) =
          (["alpha".toList, "beta".toList, "gamma".toList].filter fun cand =>
            decide (0 < matcherScore "a".toList cand)).filter
              fun cand => decide (matcherScore "a".toList cand = v) :=
  get_matches_spec "a".toList ["alpha".toList, "beta".toList, "gamma".toList] (by decide)
end TextualAC
